import Mathlib

/-!
Verification of the object-tracking / burrow-analysis core of the
`cv-mouse-burrows` pipeline, shallowly embedded from
`mouse_burrows/algorithm/pass1.py` and `mouse_burrows/algorithm/pass3.py`.

Machine numbers of the Python source (floats) are modelled by exact
rationals; external geometry and image primitives (OpenCV, shapely and the
`video.analysis` helper package) are passed in as function parameters, so
every embedded definition remains executable.  Classes of the repository's
`objects` package whose source files are not present (only their callers
are) are modelled from the specification and marked as such.
-/

namespace MouseBurrows

/-- A planar point, as a pair of exact coordinates. -/
abbrev Pt : Type := ℚ × ℚ

/-- A detected moving object: position and size (area), as produced by
`FirstPass._find_objects_in_binary_image`. -/
structure MovingObject where
  pos : Pt
  size : ℚ
deriving DecidableEq, Repr

instance : Inhabited MovingObject := ⟨⟨(0, 0), 0⟩⟩

/-- Modelled from the spec: a `Track` owns an ordered sequence of
(frame index, observation) pairs; the class `ObjectTrack` of the
`objects.moving_objects` module is not among the provided sources. -/
structure ObjectTrack where
  frames : List ℕ
  objs : List MovingObject
deriving DecidableEq, Repr

instance : Inhabited ObjectTrack := ⟨⟨[], []⟩⟩

/-- Modelled from the spec: `last` is the observation at the highest frame
index (the most recently appended one). -/
def ObjectTrack.lastObj (t : ObjectTrack) : MovingObject :=
  t.objs.getLastD default

/-- Modelled from the spec: appending one frame's observation to a track. -/
def ObjectTrack.appendObs (t : ObjectTrack) (fid : ℕ) (o : MovingObject) :
    ObjectTrack :=
  ⟨t.frames ++ [fid], t.objs ++ [o]⟩

/-- Modelled from the spec: the predicted next position is the linear
extrapolation from the last two observations, or the last position if
fewer than two observations exist. -/
def ObjectTrack.predictPos (t : ObjectTrack) : Pt :=
  match t.objs.reverse with
  | b :: a :: _ => (2 * b.pos.1 - a.pos.1, 2 * b.pos.2 - a.pos.2)
  | [b] => b.pos
  | [] => (0, 0)

/-- `ObjectTrack([frame_id], [obj])`: a fresh single-observation track. -/
def newTrack (fid : ℕ) (o : MovingObject) : ObjectTrack := ⟨[fid], [o]⟩

/-! ### The greedy score-matrix matching loop of `_handle_object_tracks`

The score matrix is a list of rows (one row per newly found object, one
column per existing track).  The source marks used rows/columns by setting
them to `inf`; the embedding records the used indices explicitly and only
considers the remaining entries. -/

/-- All remaining entries `(i, j, score)` of the matrix, in row-major
order, skipping rows and columns that have already been matched
(the source sets those to `np.inf`). -/
def remainingEntries (score : List (List ℚ)) (rdone cdone : List ℕ) :
    List (ℕ × ℕ × ℚ) :=
  (score.enum.filter (fun p => ¬ p.1 ∈ rdone)).flatMap fun p =>
    (p.2.enum.filter (fun q => ¬ q.1 ∈ cdone)).map fun q => (p.1, q.1, q.2)

/-- The first entry holding the minimal score, mirroring
`score.min()` followed by `np.argwhere(score == score_min)[0]`
(row-major first position of the minimum). -/
def bestEntry (l : List (ℕ × ℕ × ℚ)) : Option (ℕ × ℕ × ℚ) :=
  l.foldl (fun acc e =>
    match acc with
    | none => some e
    | some b => if e.2.2 < b.2.2 then some e else some b) none

/-- The `while True` matching loop: take the globally minimal remaining
score; stop if it exceeds 1; otherwise bind the pair and eliminate its row
and column.  `fuel` bounds the iteration count (each iteration consumes
one row, so `score.length` suffices). -/
def greedyLoop (score : List (List ℚ)) :
    ℕ → List ℕ → List ℕ → List (ℕ × ℕ) → List (ℕ × ℕ)
  | 0, _, _, acc => acc
  | fuel + 1, rdone, cdone, acc =>
    match bestEntry (remainingEntries score rdone cdone) with
    | none => acc
    | some (i, j, s) =>
      if 1 < s then acc
      else greedyLoop score fuel (i :: rdone) (j :: cdone) (acc ++ [(i, j)])

/-- The pairs `(i_f, i_e)` bound by the greedy loop of
`_handle_object_tracks`. -/
def matchPairs (score : List (List ℚ)) : List (ℕ × ℕ) :=
  greedyLoop score score.length [] [] []

/-- Score of entry `(i, j)` (with default 0 outside the matrix). -/
def scoreAt (score : List (List ℚ)) (i j : ℕ) : ℚ :=
  (score.getD i []).getD j 0

/-- All invariants of the matching loop, packaged: distinct observation
indices, distinct track indices, indices inside the matrix, and every
accepted score at most 1. -/
def PairsOK (score : List (List ℚ)) (l : List (ℕ × ℕ)) : Prop :=
  (l.map Prod.fst).Nodup ∧ (l.map Prod.snd).Nodup ∧
    ∀ p ∈ l, p.1 < score.length ∧ p.2 < (score.getD p.1 []).length ∧
      scoreAt score p.1 p.2 ≤ 1

instance (score : List (List ℚ)) (l : List (ℕ × ℕ)) :
    Decidable (PairsOK score l) := by
  unfold PairsOK; infer_instance

/-! ### The score matrix of `_handle_object_tracks`

The source builds the matrix in stages: a euclidean `cdist` matrix divided
by the maximal speed, an area-difference matrix divided by the maximal
relative area change, and the weighted sum of the two.  The square root
used by the euclidean metric is supplied as a function parameter. -/

/-- Euclidean distance between two points, the square-root operation being
supplied as a parameter (`scipy.spatial.distance.cdist` with
`metric='euclidean'`). -/
def euclidean (sq : ℚ → ℚ) (p q : Pt) : ℚ :=
  sq ((p.1 - q.1) ^ 2 + (p.2 - q.2) ^ 2)

/-- The pairwise distance matrix between the newly found objects'
positions and the tracks' predicted positions. -/
def cdistMatrix (sq : ℚ → ℚ) (objectsFound : List MovingObject)
    (tracks : List ObjectTrack) : List (List ℚ) :=
  objectsFound.map fun o => tracks.map fun t =>
    euclidean sq o.pos t.predictPos

/-- `dist /= self.params['mouse/speed_max']`. -/
def distMatrix (sq : ℚ → ℚ) (speedMax : ℚ) (objectsFound : List MovingObject)
    (tracks : List ObjectTrack) : List (List ℚ) :=
  (cdistMatrix sq objectsFound tracks).map (List.map (· / speedMax))

/-- The helper function scoring area differences (`area_score`). -/
def area_score (area1 area2 : ℚ) : ℚ :=
  |area1 - area2| / (area1 + area2)

/-- The area matrix, normalized such that 1 corresponds to the maximal
allowed relative area change. -/
def areasMatrix (maxRelAreaChange : ℚ) (objectsFound : List MovingObject)
    (tracks : List ObjectTrack) : List (List ℚ) :=
  (objectsFound.map fun objF => tracks.map fun objE =>
    area_score objF.size objE.lastObj.size).map
    (List.map (· / maxRelAreaChange))

/-- `score = alpha*dist + (1 - alpha)*areas`. -/
def scoreMatrix (sq : ℚ → ℚ) (alpha speedMax maxRelAreaChange : ℚ)
    (objectsFound : List MovingObject) (tracks : List ObjectTrack) :
    List (List ℚ) :=
  List.zipWith (List.zipWith fun d a => alpha * d + (1 - alpha) * a)
    (distMatrix sq speedMax objectsFound tracks)
    (areasMatrix maxRelAreaChange objectsFound tracks)

/-! ### `_handle_object_tracks`: appending, finalizing and starting tracks -/

/-- The numeric parameters used by the assignment
(`tracking/weight`, `mouse/speed_max`, `mouse/max_rel_area_change`). -/
structure TrackParams where
  alpha : ℚ
  speedMax : ℚ
  maxRelAreaChange : ℚ

/-- The append phase of the matching loop: each bound pair `(i_f, i_e)`
appends object `i_f` to track `i_e` in place (`self.tracks[i_e].append`);
the enumeration index is kept for the later bookkeeping. -/
def appendMatched (fid : ℕ) (objectsFound : List MovingObject)
    (pairs : List (ℕ × ℕ)) (tracks : List ObjectTrack) :
    List (ℕ × ObjectTrack) :=
  tracks.enum.map fun q =>
    match pairs.find? (fun p => p.2 == q.1) with
    | some p => (q.1, q.2.appendObs fid (objectsFound.getD p.1 default))
    | none => q

/-- Bookkeeping after the matching loop: matched tracks are kept (in
index order), unmatched tracks are finalized in reverse index order, and
every unmatched object starts a new track appended behind the kept
ones. -/
def handleWithTracks (fid : ℕ) (objectsFound : List MovingObject)
    (tracks : List ObjectTrack) (pairs : List (ℕ × ℕ)) :
    List ObjectTrack × List ObjectTrack :=
  (((appendMatched fid objectsFound pairs tracks).filter fun q =>
      pairs.any fun p => p.2 == q.1).map Prod.snd ++
    ((List.range objectsFound.length).filter fun i =>
      !(pairs.any fun p => p.1 == i)).map (fun i =>
      newTrack fid (objectsFound.getD i default)),
   (((appendMatched fid objectsFound pairs tracks).filter fun q =>
      !(pairs.any fun p => p.2 == q.1)).map Prod.snd).reverse)

/-- The body of `_handle_object_tracks` for a non-empty list of found
objects: if there are no previous tracks every object starts a new track;
otherwise the greedy matching appends matched objects to their tracks,
finalizes unmatched tracks and starts new tracks for unmatched objects.
Returns (active tracks, finalized tracks). -/
def handleObjectTracks (sq : ℚ → ℚ) (P : TrackParams) (fid : ℕ)
    (objectsFound : List MovingObject) (tracks : List ObjectTrack) :
    List ObjectTrack × List ObjectTrack :=
  if tracks.isEmpty then
    (objectsFound.map (newTrack fid), [])
  else
    handleWithTracks fid objectsFound tracks
      (matchPairs (scoreMatrix sq P.alpha P.speedMax P.maxRelAreaChange
        objectsFound tracks))

/-- The per-pass tracking state: the current (active) tracks and the
finalized tracks collected in `result['objects/tracks']`. -/
structure TrackerState where
  active : List ObjectTrack
  finalized : List ObjectTrack

/-- `_end_current_tracks`: all current tracks are copied to the results. -/
def endCurrentTracks (s : TrackerState) : TrackerState :=
  ⟨[], s.finalized ++ s.active⟩

/-- One frame of object tracking: `none` models a frame without useful
objects (all current tracks are ended), `some objs` runs the assignment. -/
def processFrame (sq : ℚ → ℚ) (P : TrackParams) (fid : ℕ)
    (objectsFound : Option (List MovingObject)) (s : TrackerState) :
    TrackerState :=
  match objectsFound with
  | none => endCurrentTracks s
  | some objs =>
    let r := handleObjectTracks sq P fid objs s.active
    ⟨r.1, s.finalized ++ r.2⟩

/-- Frame-sequential processing of a list of (frame index, detections). -/
def runTracker (sq : ℚ → ℚ) (P : TrackParams) :
    List (ℕ × Option (List MovingObject)) → TrackerState → TrackerState
  | [], s => s
  | (fid, objs) :: rest, s =>
    runTracker sq P rest (processFrame sq P fid objs s)

/-- A track's recorded frame indices are strictly increasing. -/
def strictFrames (t : ObjectTrack) : Prop :=
  t.frames.Chain' (· < ·)

instance (t : ObjectTrack) : Decidable (strictFrames t) := by
  unfold strictFrames; infer_instance

/-- Every track of the state, active or finalized, has strictly increasing
frame indices. -/
def allTracksSorted (s : TrackerState) : Prop :=
  ∀ t ∈ s.active ++ s.finalized, strictFrames t

instance (s : TrackerState) : Decidable (allTracksSorted s) := by
  unfold allTracksSorted; infer_instance

/-! ### The moving-track filter of `find_objects`

After the assignment, if any track is moving, `find_objects` computes
`obj_largest = np.argsort([... last.size ...])` over the moving tracks and
keeps `obj_largest[:mouse_max_count]`; every other track is moved to the
results. -/

/-- Insert index `i` into an index list sorted ascending by `vals`. -/
def insertIdxBy (vals : List ℚ) (i : ℕ) : List ℕ → List ℕ
  | [] => [i]
  | j :: rest =>
    if vals.getD i 0 < vals.getD j 0 then i :: j :: rest
    else j :: insertIdxBy vals i rest

/-- `np.argsort`: the indices of `vals` ordered by ascending value. -/
def argsort (vals : List ℚ) : List ℕ :=
  (List.range vals.length).foldr (insertIdxBy vals) []

/-- The moving-track filter of `find_objects`: `isMoving` stands for
`ObjectTrack.is_moving` (whose module is not among the provided sources).
Returns (tracks kept active, tracks moved to the results). -/
def filterMovingTracks (mouseMaxCount : ℕ) (isMoving : ObjectTrack → Bool)
    (tracks : List ObjectTrack) : List ObjectTrack × List ObjectTrack :=
  let objMoving := tracks.map isMoving
  if objMoving.any id then
    let objIdMoving := (tracks.enum.filter fun q => isMoving q.2).map Prod.fst
    let objLargest := argsort (objIdMoving.map fun k =>
      (tracks.getD k default).lastObj.size)
    let objKeep := (objLargest.take mouseMaxCount).map fun t =>
      objIdMoving.getD t 0
    ((tracks.enum.filter fun q => objKeep.contains q.1).map Prod.snd,
     (tracks.enum.filter fun q => !(objKeep.contains q.1)).map Prod.snd)
  else (tracks, [])

/-! ### Burrow model for the pass-one refinement engine -/

/-- Modelled from the spec: a burrow carries a contour polygon and an
optional centerline; the class `Burrow` of the `objects.burrow` module is
not among the provided sources.  Only identity matters for the failure
semantics of the refinement entry points. -/
structure PBurrow where
  contour : List Pt
  centerline : Option (List Pt)
  refined : Bool
deriving DecidableEq, Repr

/-- The minimal-width adjustment of `refine_long_burrow`: `d_l`/`d_r` are
the fitted edge offsets from the centerline point; if the width
`d_l - d_r` is below the minimum, both offsets move outward by half the
deficit. -/
def enforceMinWidth (widthMin dl dr : ℚ) : ℚ × ℚ :=
  let width := dl - dr
  if width < widthMin then
    (dl + (widthMin - width) / 2, dr - (widthMin - width) / 2)
  else (dl, dr)

/-- One interior centerline point of the perpendicular-scan loop of
`refine_long_burrow`: recenter the point between the two contour hits if
both exist, fit the two burrow edges on the perpendicular line scan
(`find_burrow_edge`, supplied as data since it reads the background
image), enforce the minimal width, and extend the new outline (append on
one side, prepend on the other) and the new centerline; without an edge
fit, fall back to the contour hit points. -/
def innerPoint (widthMin scanLength : ℚ) (edges : Option ℚ × Option ℚ)
    (pa pb : Option Pt) (p : Pt) (dx dy : ℚ)
    (acc : List Pt × List Pt) : List Pt × List Pt :=
  let p1 := match pa, pb with
    | some a, some b => ((a.1 + b.1) / 2, (a.2 + b.2) / 2)
    | _, _ => p
  match edges with
  | (some kl, some kr) =>
    let dlr := enforceMinWidth widthMin (scanLength - kl) (scanLength - kr)
    let dc := (dlr.1 + dlr.2) / 2
    ((p1.1 + dlr.2 * dy, p1.2 - dlr.2 * dx) ::
        acc.1 ++ [(p1.1 + dlr.1 * dy, p1.2 - dlr.1 * dx)],
     acc.2 ++ [(p1.1 + dc * dy, p1.2 - dc * dx)])
  | _ =>
    match pa, pb with
    | some a, some b => (b :: acc.1 ++ [a], acc.2 ++ [p1])
    | _, _ => acc

/-- The interior-point loop of `refine_long_burrow` over
`centerline[1:-1]`; the per-point contour hits, edge fits and local
slopes are supplied as functions of the point index. -/
def refineLongInner (widthMin scanLength : ℚ)
    (edgeFit : ℕ → Option ℚ × Option ℚ) (hits : ℕ → Option Pt × Option Pt)
    (slope : ℕ → ℚ × ℚ) (groundOutline : List Pt) (centerline : List Pt) :
    List Pt × List Pt :=
  let inner := (centerline.drop 1).dropLast
  (List.range inner.length).foldl (fun acc k =>
    innerPoint widthMin scanLength (edgeFit k) (hits k).1 (hits k).2
      (inner.getD k (0, 0)) (slope k).1 (slope k).2 acc)
    (groundOutline, [centerline.getD 0 (0, 0)])

/-- `refine_long_burrow`: if the computed centerline has fewer than 4
points, refinement is not supported and the unrefined burrow is returned;
otherwise the interior scan runs, and when it retains fewer than 2
centerline points the burrow is dropped (`None`); the end-point and
exit-point handling plus the final polygon regularization (external
geometry/raster operations) are supplied as `finish`, which may also fail
with `None`. -/
def refineLongBurrow (burrow : PBurrow) (groundOutline : List Pt)
    (centerline : List Pt) (widthMin scanLength : ℚ)
    (edgeFit : ℕ → Option ℚ × Option ℚ) (hits : ℕ → Option Pt × Option Pt)
    (slope : ℕ → ℚ × ℚ) (equidistant : List Pt → List Pt)
    (finish : List Pt → List Pt → Option PBurrow) : Option PBurrow :=
  if centerline.length < 4 then some burrow
  else
    let cl := equidistant centerline
    let r := refineLongInner widthMin scanLength edgeFit hits slope
      groundOutline cl
    if r.2.length < 2 then none
    else finish r.1 r.2

/-- `refine_bulky_burrow`: the mask preparation and the `cv2.grabCut`
call are summarized by `grabCut`, whose `error` case models any exception
raised by the GrabCut algorithm (caught by the bare `except:`); on
success, extracting a burrow from the segmented mask (`extract`) may
still fail, in which case the burrow is dropped (`None`,
`Invalid burrow from GrabCut`). -/
def refineBulkyBurrow {μ : Type} (burrow : PBurrow)
    (grabCut : Except Unit μ) (extract : μ → Except Unit PBurrow) :
    Option PBurrow :=
  match grabCut with
  | .error _ => some burrow
  | .ok m =>
    match extract m with
    | .ok b => some b
    | .error _ => none

/-! ### Burrow extraction (`get_burrow_from_mask`) -/

/-- The typed extraction failures of the specification's taxonomy; the
source raises `RuntimeError` with corresponding messages. -/
inductive ExtractError
  | noContour
  | areaTooSmall
  | degeneratePolygon
  | invalidContour
deriving DecidableEq, Repr

/-- The running maximum of `np.argmax`: the first (index, value) pair
holding the maximal value. -/
def argmaxPair (l : List ℚ) : ℕ × ℚ :=
  l.enum.foldl (fun best q => if q.2 > best.2 then q else best)
    (0, l.headD 0)

/-- `get_burrow_from_mask`, embedded from the stage after the external
`cv2.findContours`/`cv2.contourArea` calls: the input is the list of
contours with their areas; the downstream curve simplification, ground
snapping, area-preserving simplification, regularization and offset
translation are summarized by `postprocess` (they are all external
`video.analysis` helpers), and the final `Burrow(contour)` construction
by `mkBurrow`. -/
def getBurrowFromMask (areaMin : ℚ) (contours : List (List Pt × ℚ))
    (postprocess : List Pt → Option (List Pt))
    (mkBurrow : List Pt → Except Unit PBurrow) :
    Except ExtractError PBurrow :=
  if contours.isEmpty then .error .noContour
  else
    let areas := contours.map Prod.snd
    let cid := (argmaxPair areas).1
    if areas.getD cid 0 < areaMin then .error .areaTooSmall
    else
      match postprocess (contours.getD cid ([], 0)).1 with
      | none => .error .invalidContour
      | some contour =>
        match mkBurrow contour with
        | .ok b => .ok b
        | .error _ => .error .degeneratePolygon

/-- The per-feature loop of `find_burrows`: each labelled region is fed
to the extraction; a `RuntimeError` (`.error`) discards the candidate and
processing continues with the next feature. -/
def processBurrowFeatures {χ : Type} (extract : χ → Except ExtractError PBurrow) :
    List χ → List PBurrow
  | [] => []
  | x :: rest =>
    match extract x with
    | .ok b => b :: processBurrowFeatures extract rest
    | .error _ => processBurrowFeatures extract rest

/-! ### The centerline ray-casting loop of `get_burrow_centerline` -/

/-- `np.linspace a b n`. -/
def linspace (a b : ℚ) (n : ℕ) : List ℚ :=
  (List.range n).map fun k => a + (b - a) * k / ((n : ℚ) - 1)

/-- The numeric parameters of the centerline computation; the
trigonometric operations of the source are supplied as functions. -/
structure CenterlineParams where
  segmentLength : ℚ
  curvatureRadiusMax : ℚ
  arccosFn : ℚ → ℚ
  cosFn : ℚ → ℚ
  sinFn : ℚ → ℚ

/-- `angle_max = arccos(1 - 0.5*ratio**2)` with
`ratio = centerline_segment_length/curvature_radius_max`. -/
def angleMax (P : CenterlineParams) : ℚ :=
  P.arccosFn (1 - 1 / 2 * (P.segmentLength / P.curvatureRadiusMax) ^ 2)

/-- Modelled from the spec: `regions.get_farthest_ray_intersection` of the
external `video.analysis` helper package casts a ray per angle (the
individual hit point and distance supplied by `rayCast`) and picks the hit
with maximal intersection distance, together with its angle. -/
def farthestRay (rayCast : Pt → ℚ → Option (Pt × ℚ)) (anchor : Pt)
    (angles : List ℚ) : Option (Pt × ℚ × ℚ) :=
  angles.foldl (fun best ang =>
    match rayCast anchor ang with
    | none => best
    | some (pt, d) =>
      match best with
      | none => some (pt, d, ang)
      | some b => if d > b.2.1 then some (pt, d, ang) else best) none

/-- The `while True` loop of `get_burrow_centerline`: cast 16 rays within
the symmetric window `angle ± angle_max` around the previous direction;
abort if no ray hits; if the longest ray exceeds one segment length,
advance the anchor by one segment length along the winning angle and
record it, else record the boundary hit point and terminate. -/
def centerlineLoop (P : CenterlineParams)
    (rayCast : Pt → ℚ → Option (Pt × ℚ)) :
    ℕ → Pt → ℚ → List Pt → List Pt
  | 0, _, _, acc => acc
  | fuel + 1, anchor, ang, acc =>
    match farthestRay rayCast anchor
      (linspace (ang - angleMax P) (ang + angleMax P) 16) with
    | none => acc
    | some (pmax, dmax, angW) =>
      if dmax > P.segmentLength then
        centerlineLoop P rayCast fuel
          (anchor.1 + P.segmentLength * P.cosFn angW,
           anchor.2 + P.segmentLength * P.sinFn angW) angW
          (acc ++ [(anchor.1 + P.segmentLength * P.cosFn angW,
            anchor.2 + P.segmentLength * P.sinFn angW)])
      else acc ++ [pmax]

/-! ### Burrow track merging in `ThirdPass.store_burrows` -/

/-- Modelled from the spec: a burrow for the lifecycle manager, its
polygon represented by a raster region (finite set of cells) and its
centerline length; the class `Burrow` of the `objects.burrow` module is
not among the provided sources.  Merging combines two burrows into the
union of their polygons; two burrows intersect when their regions share a
cell; the area is the region's measure (cell count). -/
structure MBurrow where
  region : Finset (ℤ × ℤ)
  length : ℚ
deriving DecidableEq

/-- `burrow.merge(other)`: the union of the two polygons. -/
def MBurrow.merge (a b : MBurrow) : MBurrow :=
  ⟨a.region ∪ b.region, a.length⟩

/-- The polygon's area. -/
def MBurrow.area (a : MBurrow) : ℕ := a.region.card

/-- Modelled from the spec: a burrow track (frame indices and burrows);
the class `BurrowTrack` of the `objects.burrow` module is not among the
provided sources. -/
structure MBurrowTrack where
  frames : List ℕ
  burrows : List MBurrow
deriving DecidableEq

instance : Inhabited MBurrowTrack := ⟨⟨[], []⟩⟩

/-- `track_end`: the frame of the most recent observation. -/
def MBurrowTrack.trackEnd (t : MBurrowTrack) : ℕ := t.frames.getLastD 0

/-- `last`: the most recent burrow. -/
def MBurrowTrack.lastB (t : MBurrowTrack) : MBurrow :=
  t.burrows.getLastD ⟨∅, 0⟩

/-- `track.append(frame_id, burrow)`. -/
def MBurrowTrack.appendB (t : MBurrowTrack) (fid : ℕ) (b : MBurrow) :
    MBurrowTrack :=
  ⟨t.frames ++ [fid], t.burrows ++ [b]⟩

/-- The `track_ids` computation of `store_burrows`: indices of the
tracks that are active (`track_end >= frame_id - time_interval`) and
whose last burrow intersects the candidate. -/
def overlappingIds (fid interval : ℕ) (tracks : List MBurrowTrack)
    (burrow : MBurrow) : List ℕ :=
  (tracks.enum.filter fun q =>
    decide ((fid : ℤ) - interval ≤ (q.2.trackEnd : ℤ)) &&
      !(decide ((q.2.lastB.region ∩ burrow.region) = ∅))).map Prod.fst

/-- One step of the merge loop over `track_ids`: remember the track with
the longest burrow seen so far and merge the track's last burrow into the
candidate. -/
def mergeStep (tracks : List MBurrowTrack) (st : Option ℕ × ℚ × MBurrow)
    (tid : ℕ) : Option ℕ × ℚ × MBurrow :=
  if (tracks.getD tid default).lastB.length > st.2.1 then
    (some tid, (tracks.getD tid default).lastB.length,
      st.2.2.merge (tracks.getD tid default).lastB)
  else (st.1, st.2.1, st.2.2.merge (tracks.getD tid default).lastB)

/-- The merge loop of `store_burrows`: starting from
`track_longest, length_max = None, 0`, every overlapping track's last
burrow is merged into the candidate while the track with the longest
burrow is remembered. -/
def mergeLoop (tracks : List MBurrowTrack) (ids : List ℕ)
    (burrow : MBurrow) : Option ℕ × ℚ × MBurrow :=
  ids.foldl (mergeStep tracks) (none, 0, burrow)

/-- The tail of the `store_burrows` loop body: clip the (merged)
candidate to the ground region (an empty intersection drops the
candidate), then append the result to the longest overlapping track when
several tracks overlap, to the single overlapping track, or start a new
track.  `none` models the `burrow_tracks[None]` lookup the source would
perform when several tracks overlap but every one has burrow length 0
(a `TypeError` in Python). -/
def storeAfterMerge (fid : ℕ) (ground : Finset (ℤ × ℤ))
    (tracks : List MBurrowTrack) (ids : List ℕ)
    (st : Option ℕ × ℚ × MBurrow) : Option (List MBurrowTrack) :=
  if st.2.2.region ∩ ground = ∅ then some tracks
  else if 1 < ids.length then
    match st.1 with
    | some k => some (tracks.enum.map fun q =>
        if q.1 = k then
          q.2.appendB fid ⟨st.2.2.region ∩ ground, st.2.2.length⟩
        else q.2)
    | none => none
  else if ids.length = 1 then
    some (tracks.enum.map fun q =>
      if q.1 = ids.getD 0 0 then
        q.2.appendB fid ⟨st.2.2.region ∩ ground, st.2.2.length⟩
      else q.2)
  else some (tracks ++ [⟨[fid], [⟨st.2.2.region ∩ ground, st.2.2.length⟩]⟩])

/-- The body of the `store_burrows` loop for one candidate burrow. -/
def storeBurrowCandidate (fid interval : ℕ) (ground : Finset (ℤ × ℤ))
    (tracks : List MBurrowTrack) (burrow : MBurrow) :
    Option (List MBurrowTrack) :=
  storeAfterMerge fid ground tracks
    (overlappingIds fid interval tracks burrow)
    (if 1 < (overlappingIds fid interval tracks burrow).length then
      mergeLoop tracks (overlappingIds fid interval tracks burrow) burrow
    else (none, 0, burrow))

/-- A concrete ground region used to exercise the merge step. -/
def sampleGround : Finset (ℤ × ℤ) := {(0, 0), (0, 1), (0, 2)}

/-- Two concrete active burrow tracks overlapping the same candidate. -/
def sampleTracks : List MBurrowTrack :=
  [⟨[5], [⟨{(0, 0), (0, 1)}, 2⟩]⟩, ⟨[6], [⟨{(0, 1), (0, 2)}, 3⟩]⟩]

/-- A concrete candidate burrow overlapping both sample tracks. -/
def sampleBurrow : MBurrow := ⟨{(0, 0), (0, 1), (0, 2)}, 1⟩

/-! ## Theorems -/

theorem bestEntry_foldl_mem (l : List (ℕ × ℕ × ℚ)) (a : Option (ℕ × ℕ × ℚ))
    (e : ℕ × ℕ × ℚ)
    (h : l.foldl (fun acc x =>
      match acc with
      | none => some x
      | some b => if x.2.2 < b.2.2 then some x else some b) a = some e) :
    a = some e ∨ e ∈ l := by
  induction l generalizing a with
  | nil => exact Or.inl h
  | cons x xs ih =>
    simp only [List.foldl_cons] at h
    rcases ih _ h with h' | h'
    · match a with
      | none =>
        simp only [Option.some.injEq] at h'
        exact Or.inr (h' ▸ List.mem_cons_self x xs)
      | some b =>
        by_cases hc : x.2.2 < b.2.2
        · simp only [if_pos hc, Option.some.injEq] at h'
          exact Or.inr (h' ▸ List.mem_cons_self x xs)
        · simp only [if_neg hc] at h'
          exact Or.inl h'
    · exact Or.inr (List.mem_cons_of_mem _ h')

theorem bestEntry_mem {l : List (ℕ × ℕ × ℚ)} {e : ℕ × ℕ × ℚ}
    (h : bestEntry l = some e) : e ∈ l := by
  rcases bestEntry_foldl_mem l none e h with h' | h'
  · exact absurd h' (by simp)
  · exact h'

theorem mem_remainingEntries {score : List (List ℚ)} {rdone cdone : List ℕ}
    {i j : ℕ} {s : ℚ} (h : (i, j, s) ∈ remainingEntries score rdone cdone) :
    i ∉ rdone ∧ j ∉ cdone ∧ i < score.length ∧
      j < (score.getD i []).length ∧ scoreAt score i j = s := by
  unfold remainingEntries at h
  rcases List.mem_flatMap.mp h with ⟨p, hp, hmem⟩
  rcases List.mem_filter.mp hp with ⟨hpe, hpd⟩
  rcases List.mem_map.mp hmem with ⟨q, hq, hqe⟩
  rcases List.mem_filter.mp hq with ⟨hqe2, hqd⟩
  obtain ⟨pi, prow⟩ := p
  obtain ⟨qj, qs⟩ := q
  obtain ⟨hi, hj, hs⟩ : pi = i ∧ qj = j ∧ qs = s := by
    injection hqe with h1 h2
    injection h2 with h2 h3
    exact ⟨h1, h2, h3⟩
  subst hi hj hs
  have hget : score[pi]? = some prow := List.mk_mem_enum_iff_getElem?.mp hpe
  have hget2 : prow[qj]? = some qs := List.mk_mem_enum_iff_getElem?.mp hqe2
  have hilt : pi < score.length := (List.getElem?_eq_some.mp hget).1
  have hrow : score.getD pi [] = prow := by
    simp [List.getD, hget]
  have hjlt : qj < prow.length := (List.getElem?_eq_some.mp hget2).1
  refine ⟨by simpa using hpd, by simpa using hqd, hilt, by rw [hrow]; exact hjlt, ?_⟩
  simp [scoreAt, List.getD, hget, hget2]

theorem greedyLoop_spec (score : List (List ℚ)) :
    ∀ (fuel : ℕ) (rdone cdone : List ℕ) (acc : List (ℕ × ℕ)),
    (∀ p ∈ acc, p.1 ∈ rdone) → (∀ p ∈ acc, p.2 ∈ cdone) →
    PairsOK score acc →
    PairsOK score (greedyLoop score fuel rdone cdone acc) := by
  intro fuel
  induction fuel with
  | zero => intro rdone cdone acc _ _ hOK; exact hOK
  | succ n ih =>
    intro rdone cdone acc hr hc hOK
    rw [greedyLoop]
    cases hbe : bestEntry (remainingEntries score rdone cdone) with
    | none => exact hOK
    | some e =>
      obtain ⟨i, j, s⟩ := e
      by_cases hgt : 1 < s
      · simp only [if_pos hgt]; exact hOK
      · simp only [if_neg hgt]
        obtain ⟨hir, hjc, hilt, hjlt, hsv⟩ :=
          mem_remainingEntries (bestEntry_mem hbe)
        obtain ⟨hnd1, hnd2, hprops⟩ := hOK
        refine ih (i :: rdone) (j :: cdone) (acc ++ [(i, j)]) ?_ ?_ ⟨?_, ?_, ?_⟩
        · intro p hp
          rcases List.mem_append.mp hp with hp | hp
          · exact List.mem_cons_of_mem _ (hr p hp)
          · simp at hp; simp [hp]
        · intro p hp
          rcases List.mem_append.mp hp with hp | hp
          · exact List.mem_cons_of_mem _ (hc p hp)
          · simp at hp; simp [hp]
        · rw [List.map_append, List.nodup_append]
          refine ⟨hnd1, by simp, ?_⟩
          intro a ha hb
          simp at hb
          rcases List.mem_map.mp ha with ⟨p, hp, hpa⟩
          exact hir (hb ▸ hpa ▸ hr p hp)
        · rw [List.map_append, List.nodup_append]
          refine ⟨hnd2, by simp, ?_⟩
          intro a ha hb
          simp at hb
          rcases List.mem_map.mp ha with ⟨p, hp, hpa⟩
          exact hjc (hb ▸ hpa ▸ hc p hp)
        · intro p hp
          rcases List.mem_append.mp hp with hp | hp
          · exact hprops p hp
          · simp at hp
            refine hp ▸ ⟨hilt, hjlt, ?_⟩
            rw [hsv]
            exact le_of_not_lt hgt

/-- C1: in the per-frame greedy assignment, a returned pairing binds no
observation to two tracks and no track to two observations, and every
accepted pair's score is at most 1 (the loop stops once the global minimum
exceeds 1). -/
theorem C1_greedy_no_double_binding (score : List (List ℚ)) :
    PairsOK score (matchPairs score) := by
  exact greedyLoop_spec score score.length [] [] []
    (by intro p hp; cases hp) (by intro p hp; cases hp)
    ⟨List.nodup_nil, List.nodup_nil, by intro p hp; cases hp⟩

/-- Shared version of the no-double-binding facts, for use by the proofs
of other properties of `_handle_object_tracks`. -/
theorem matchPairs_ok (score : List (List ℚ)) :
    PairsOK score (matchPairs score) :=
  greedyLoop_spec score score.length [] [] []
    (by intro p hp; cases hp) (by intro p hp; cases hp)
    ⟨List.nodup_nil, List.nodup_nil, by intro p hp; cases hp⟩

theorem scoreAt_of_getElem? {score : List (List ℚ)} {i j : ℕ}
    {row : List ℚ} {v : ℚ} (h1 : score[i]? = some row)
    (h2 : row[j]? = some v) : scoreAt score i j = v := by
  simp [scoreAt, List.getD, h1, h2]

/-- C2: the combined assignment score of observation `i` and track `j`
equals `α·(euclidean distance to the predicted position / max_speed) +
(1−α)·(relative area difference / max_relative_area_change)`. -/
theorem C2_score_formula (sq : ℚ → ℚ) (alpha speedMax maxRelAreaChange : ℚ)
    (objectsFound : List MovingObject) (tracks : List ObjectTrack)
    (i j : ℕ) (hi : i < objectsFound.length) (hj : j < tracks.length) :
    scoreAt (scoreMatrix sq alpha speedMax maxRelAreaChange objectsFound
      tracks) i j =
      alpha * (euclidean sq objectsFound[i].pos tracks[j].predictPos
          / speedMax) +
        (1 - alpha) * (|objectsFound[i].size - tracks[j].lastObj.size| /
          (objectsFound[i].size + tracks[j].lastObj.size)
          / maxRelAreaChange) := by
  have h1 : (scoreMatrix sq alpha speedMax maxRelAreaChange objectsFound
      tracks)[i]? = some (List.zipWith
        (fun d a => alpha * d + (1 - alpha) * a)
        ((tracks.map fun t =>
          euclidean sq objectsFound[i].pos t.predictPos).map (· / speedMax))
        ((tracks.map fun t =>
          area_score objectsFound[i].size t.lastObj.size).map
          (· / maxRelAreaChange))) := by
    simp [scoreMatrix, List.getElem?_zipWith', distMatrix, areasMatrix,
      cdistMatrix, List.getElem?_map, List.getElem?_eq_getElem hi]
  have h2 : (List.zipWith (fun d a => alpha * d + (1 - alpha) * a)
      ((tracks.map fun t =>
        euclidean sq objectsFound[i].pos t.predictPos).map (· / speedMax))
      ((tracks.map fun t =>
        area_score objectsFound[i].size t.lastObj.size).map
        (· / maxRelAreaChange)))[j]? =
      some (alpha * (euclidean sq objectsFound[i].pos tracks[j].predictPos
          / speedMax) +
        (1 - alpha) * (|objectsFound[i].size - tracks[j].lastObj.size| /
          (objectsFound[i].size + tracks[j].lastObj.size)
          / maxRelAreaChange)) := by
    simp [List.getElem?_zipWith', List.getElem?_map,
      List.getElem?_eq_getElem hj, area_score]
  exact scoreAt_of_getElem? h1 h2

theorem scoreMatrix_length (sq : ℚ → ℚ) (alpha speedMax mr : ℚ)
    (objs : List MovingObject) (tracks : List ObjectTrack) :
    (scoreMatrix sq alpha speedMax mr objs tracks).length = objs.length := by
  simp [scoreMatrix, distMatrix, areasMatrix, cdistMatrix]

theorem scoreMatrix_row_length (sq : ℚ → ℚ) (alpha speedMax mr : ℚ)
    (objs : List MovingObject) (tracks : List ObjectTrack) {i : ℕ}
    (hi : i < objs.length) :
    ((scoreMatrix sq alpha speedMax mr objs tracks).getD i []).length =
      tracks.length := by
  have h1 : (distMatrix sq speedMax objs tracks)[i]? =
      some ((tracks.map fun t =>
        euclidean sq objs[i].pos t.predictPos).map (· / speedMax)) := by
    simp [distMatrix, cdistMatrix, List.getElem?_map,
      List.getElem?_eq_getElem hi]
  have h2 : (areasMatrix mr objs tracks)[i]? =
      some ((tracks.map fun t =>
        area_score objs[i].size t.lastObj.size).map (· / mr)) := by
    simp [areasMatrix, List.getElem?_map, List.getElem?_eq_getElem hi]
  simp [scoreMatrix, List.getD, List.getElem?_zipWith', h1, h2]

theorem countP_not_add_countP {α : Type} (p : α → Bool) (l : List α) :
    l.countP (fun a => !(p a)) + l.countP p = l.length := by
  induction l with
  | nil => simp
  | cons x xs ih =>
    by_cases hx : p x = true
    · rw [List.countP_cons_of_pos _ _ hx,
        List.countP_cons_of_neg _ _ (by simp [hx]), List.length_cons]
      omega
    · rw [List.countP_cons_of_neg _ _ hx,
        List.countP_cons_of_pos _ _ (by simp [hx]), List.length_cons]
      omega

/-- Counting the elements of `range m` satisfying a predicate that
characterizes membership in a duplicate-free, bounded list recovers the
list's length. -/
theorem countP_range_mem (p : ℕ → Bool) (xs : List ℕ) (m : ℕ)
    (hnd : xs.Nodup) (hb : ∀ x ∈ xs, x < m)
    (hiff : ∀ j, p j = true ↔ j ∈ xs) :
    (List.range m).countP p = xs.length := by
  rw [List.countP_eq_length_filter]
  have hnd2 : ((List.range m).filter p).Nodup :=
    (List.nodup_range m).filter _
  have hmem : ∀ j, j ∈ (List.range m).filter p ↔ j ∈ xs := by
    intro j
    rw [List.mem_filter]
    constructor
    · rintro ⟨-, h2⟩
      exact (hiff j).mp h2
    · intro hj
      exact ⟨List.mem_range.mpr (hb j hj), (hiff j).mpr hj⟩
  rw [← List.toFinset_card_of_nodup hnd2, ← List.toFinset_card_of_nodup hnd]
  congr 1
  ext j
  simp only [List.mem_toFinset]
  exact hmem j

/-- A duplicate-free list of naturals below `n` has at most `n` members. -/
theorem nodup_bounded_length_le (xs : List ℕ) (n : ℕ) (hnd : xs.Nodup)
    (hb : ∀ x ∈ xs, x < n) : xs.length ≤ n := by
  rw [← List.toFinset_card_of_nodup hnd]
  have : xs.toFinset ⊆ Finset.range n := by
    intro x hx
    exact Finset.mem_range.mpr (hb x (List.mem_toFinset.mp hx))
  simpa using Finset.card_le_card this

theorem appendMatched_map_fst (fid : ℕ) (objectsFound : List MovingObject)
    (pairs : List (ℕ × ℕ)) (tracks : List ObjectTrack) :
    (appendMatched fid objectsFound pairs tracks).map Prod.fst =
      List.range tracks.length := by
  unfold appendMatched
  rw [List.map_map, ← List.enum_map_fst tracks]
  apply List.map_congr_left
  intro q _
  cases hfind : pairs.find? (fun p => p.2 == q.1) <;> simp [hfind]

theorem kept_length (fid : ℕ) (objectsFound : List MovingObject)
    (pairs : List (ℕ × ℕ)) (tracks : List ObjectTrack) :
    ((appendMatched fid objectsFound pairs tracks).filter
      fun q => pairs.any fun p => p.2 == q.1).length =
      (List.range tracks.length).countP
        fun j => pairs.any fun p => p.2 == j := by
  rw [← appendMatched_map_fst fid objectsFound pairs tracks,
    List.countP_map, ← List.countP_eq_length_filter]
  rfl

/-- C10: after the assignment of a non-empty list of found objects, the
number of active tracks equals the number of objects found in the frame
(the assertion `len(self.tracks) == len(objects_found)` at the end of
`_handle_object_tracks`). -/
theorem C10_track_count (sq : ℚ → ℚ) (P : TrackParams) (fid : ℕ)
    (objectsFound : List MovingObject) (tracks : List ObjectTrack)
    (h : objectsFound ≠ []) :
    ((handleObjectTracks sq P fid objectsFound tracks).1).length =
      objectsFound.length := by
  unfold handleObjectTracks
  by_cases he : tracks.isEmpty
  · simp [he]
  · rw [if_neg (by simpa using he)]
    unfold handleWithTracks
    simp only [List.length_append, List.length_map]
    obtain ⟨nd1, nd2, hbnd⟩ := matchPairs_ok (scoreMatrix sq P.alpha
      P.speedMax P.maxRelAreaChange objectsFound tracks)
    set score := scoreMatrix sq P.alpha P.speedMax P.maxRelAreaChange
      objectsFound tracks with hscore
    set pairs := matchPairs score with hpairs
    have hb1 : ∀ x ∈ pairs.map Prod.fst, x < objectsFound.length := by
      intro x hx
      rcases List.mem_map.mp hx with ⟨pr, hpr, rfl⟩
      have := (hbnd pr hpr).1
      rwa [hscore, scoreMatrix_length] at this
    have hb2 : ∀ x ∈ pairs.map Prod.snd, x < tracks.length := by
      intro x hx
      rcases List.mem_map.mp hx with ⟨pr, hpr, rfl⟩
      have h1 := (hbnd pr hpr).1
      have h2 := (hbnd pr hpr).2.1
      rw [hscore, scoreMatrix_length] at h1
      rwa [hscore, scoreMatrix_row_length sq P.alpha P.speedMax
        P.maxRelAreaChange objectsFound tracks h1] at h2
    have hkept : ((appendMatched fid objectsFound pairs tracks).filter
        fun q => pairs.any fun p => p.2 == q.1).length = pairs.length := by
      rw [kept_length fid objectsFound pairs tracks]
      have := countP_range_mem (fun j => pairs.any fun p => p.2 == j)
        (pairs.map Prod.snd) tracks.length nd2 hb2 ?_
      · rw [this, List.length_map]
      · intro j
        rw [List.any_eq_true]
        constructor
        · rintro ⟨pr, hpr, hb⟩
          exact List.mem_map.mpr ⟨pr, hpr, beq_iff_eq.mp hb⟩
        · intro hj
          rcases List.mem_map.mp hj with ⟨pr, hpr, rfl⟩
          exact ⟨pr, hpr, by simp⟩
    have hcnt : (List.range objectsFound.length).countP
        (fun i => pairs.any fun p => p.1 == i) = pairs.length := by
      have := countP_range_mem (fun i => pairs.any fun p => p.1 == i)
        (pairs.map Prod.fst) objectsFound.length nd1 hb1 ?_
      · rw [this, List.length_map]
      · intro j
        rw [List.any_eq_true]
        constructor
        · rintro ⟨pr, hpr, hb⟩
          exact List.mem_map.mpr ⟨pr, hpr, beq_iff_eq.mp hb⟩
        · intro hj
          rcases List.mem_map.mp hj with ⟨pr, hpr, rfl⟩
          exact ⟨pr, hpr, by simp⟩
    have hstart : ((List.range objectsFound.length).filter
        fun i => !(pairs.any fun p => p.1 == i)).length =
        objectsFound.length - pairs.length := by
      rw [← List.countP_eq_length_filter]
      have htot := countP_not_add_countP
        (fun i => pairs.any fun p => p.1 == i)
        (List.range objectsFound.length)
      rw [List.length_range, hcnt] at htot
      omega
    have hle : pairs.length ≤ objectsFound.length := by
      have := nodup_bounded_length_le (pairs.map Prod.fst)
        objectsFound.length nd1 hb1
      rwa [List.length_map] at this
    rw [hkept, hstart]
    omega

theorem appendMatched_mem {fid : ℕ} {objectsFound : List MovingObject}
    {pairs : List (ℕ × ℕ)} {tracks : List ObjectTrack}
    {q : ℕ × ObjectTrack} (hq : q ∈ appendMatched fid objectsFound pairs tracks) :
    q.2 ∈ tracks ∨ ∃ t0 ∈ tracks, ∃ o, q.2 = t0.appendObs fid o := by
  unfold appendMatched at hq
  rcases List.mem_map.mp hq with ⟨q0, hq0, rfl⟩
  obtain ⟨i, t⟩ := q0
  have hmem : t ∈ tracks := by
    have := List.mk_mem_enum_iff_getElem?.mp hq0
    exact List.getElem?_mem this
  cases hfind : pairs.find? (fun p => p.2 == i) with
  | none => simp only [hfind]; exact Or.inl hmem
  | some p =>
    simp only [hfind]
    exact Or.inr ⟨t, hmem, objectsFound.getD p.1 default, rfl⟩

theorem handle_mem_cases {sq : ℚ → ℚ} {P : TrackParams} {fid : ℕ}
    {objectsFound : List MovingObject} {tracks : List ObjectTrack}
    {t : ObjectTrack}
    (ht : t ∈ (handleObjectTracks sq P fid objectsFound tracks).1 ∨
      t ∈ (handleObjectTracks sq P fid objectsFound tracks).2) :
    (∃ o, t = newTrack fid o) ∨ t ∈ tracks ∨
      ∃ t0 ∈ tracks, ∃ o, t = t0.appendObs fid o := by
  unfold handleObjectTracks at ht
  by_cases he : tracks.isEmpty
  · rw [if_pos he] at ht
    rcases ht with ht | ht
    · rcases List.mem_map.mp ht with ⟨o, _, rfl⟩
      exact Or.inl ⟨o, rfl⟩
    · cases ht
  · rw [if_neg (by simpa using he)] at ht
    unfold handleWithTracks at ht
    rcases ht with ht | ht
    · rcases List.mem_append.mp ht with ht | ht
      · rcases List.mem_map.mp ht with ⟨q, hq, rfl⟩
        rcases appendMatched_mem (List.mem_of_mem_filter hq) with hc | hc
        · exact Or.inr (Or.inl hc)
        · exact Or.inr (Or.inr hc)
      · rcases List.mem_map.mp ht with ⟨i, _, rfl⟩
        exact Or.inl ⟨_, rfl⟩
    · rw [List.mem_reverse] at ht
      rcases List.mem_map.mp ht with ⟨q, hq, rfl⟩
      rcases appendMatched_mem (List.mem_of_mem_filter hq) with hc | hc
      · exact Or.inr (Or.inl hc)
      · exact Or.inr (Or.inr hc)

/-- Appending a frame index above all recorded ones keeps the frame list
strictly increasing. -/
theorem strictFrames_append {t : ObjectTrack} {fid : ℕ} {o : MovingObject}
    (hs : strictFrames t) (hlt : ∀ g ∈ t.frames, g < fid) :
    strictFrames (t.appendObs fid o) := by
  unfold strictFrames ObjectTrack.appendObs at *
  rw [List.chain'_append]
  refine ⟨hs, List.chain'_singleton fid, ?_⟩
  intro x hx y hy
  simp only [List.head?_cons, Option.mem_def, Option.some.injEq] at hy
  subst hy
  exact hlt x (List.mem_of_mem_getLast? hx)

theorem processFrame_ok (sq : ℚ → ℚ) (P : TrackParams) (fid : ℕ)
    (objectsFound : Option (List MovingObject)) (s : TrackerState)
    (hOK : allTracksSorted s)
    (hlt : ∀ t ∈ s.active, ∀ g ∈ t.frames, g < fid) :
    allTracksSorted (processFrame sq P fid objectsFound s) ∧
      ∀ t ∈ (processFrame sq P fid objectsFound s).active,
        ∀ g ∈ t.frames, g ≤ fid := by
  cases objectsFound with
  | none =>
    refine ⟨?_, ?_⟩
    · intro t ht
      simp only [processFrame, endCurrentTracks, List.nil_append] at ht
      rcases List.mem_append.mp ht with ht | ht
      · exact hOK t (List.mem_append.mpr (Or.inr ht))
      · exact hOK t (List.mem_append.mpr (Or.inl ht))
    · intro t ht
      simp only [processFrame, endCurrentTracks] at ht
      cases ht
  | some objs =>
    have hcase : ∀ t, t ∈ (handleObjectTracks sq P fid objs s.active).1 ∨
        t ∈ (handleObjectTracks sq P fid objs s.active).2 →
        (strictFrames t ∧ ∀ g ∈ t.frames, g ≤ fid) ∨
        (strictFrames t ∧ t ∈ s.active) := by
      intro t ht
      rcases handle_mem_cases ht with ⟨o, rfl⟩ | hm | ⟨t0, ht0, o, rfl⟩
      · exact Or.inl ⟨List.chain'_singleton fid, by
          intro g hg
          simp only [newTrack, List.mem_singleton] at hg
          exact le_of_eq hg⟩
      · exact Or.inr ⟨hOK t (List.mem_append.mpr (Or.inl hm)), hm⟩
      · refine Or.inl ⟨strictFrames_append
          (hOK t0 (List.mem_append.mpr (Or.inl ht0))) (hlt t0 ht0), ?_⟩
        intro g hg
        simp only [ObjectTrack.appendObs] at hg
        rcases List.mem_append.mp hg with hg | hg
        · exact le_of_lt (hlt t0 ht0 g hg)
        · rw [List.mem_singleton] at hg
          exact le_of_eq hg
    constructor
    · intro t ht
      simp only [processFrame] at ht
      rcases List.mem_append.mp ht with ht | ht
      · rcases hcase t (Or.inl ht) with ⟨h1, _⟩ | ⟨h1, _⟩ <;> exact h1
      · rcases List.mem_append.mp ht with ht | ht
        · exact hOK t (List.mem_append.mpr (Or.inr ht))
        · rcases hcase t (Or.inr ht) with ⟨h1, _⟩ | ⟨h1, _⟩ <;> exact h1
    · intro t ht
      simp only [processFrame] at ht
      rcases hcase t (Or.inl ht) with ⟨_, h2⟩ | ⟨_, hm⟩
      · exact h2
      · intro g hg
        exact le_of_lt (hlt t hm g hg)

theorem runTracker_ok (sq : ℚ → ℚ) (P : TrackParams) :
    ∀ (framesIn : List (ℕ × Option (List MovingObject))) (s : TrackerState),
    allTracksSorted s →
    (framesIn.map Prod.fst).Chain' (· < ·) →
    (∀ fid, (framesIn.map Prod.fst).head? = some fid →
      ∀ t ∈ s.active, ∀ g ∈ t.frames, g < fid) →
    allTracksSorted (runTracker sq P framesIn s) := by
  intro framesIn
  induction framesIn with
  | nil => intro s hOK _ _; exact hOK
  | cons fr rest ih =>
    intro s hOK hchain hhead
    obtain ⟨fid, objs⟩ := fr
    simp only [runTracker]
    have hlt : ∀ t ∈ s.active, ∀ g ∈ t.frames, g < fid :=
      hhead fid (by simp)
    obtain ⟨hOK2, hle⟩ := processFrame_ok sq P fid objs s hOK hlt
    apply ih _ hOK2
    · simp only [List.map_cons] at hchain
      exact hchain.tail
    · intro fid2 hfid2 t ht g hg
      have hlt2 : fid < fid2 := by
        simp only [List.map_cons] at hchain
        exact (List.chain'_cons'.mp hchain).1 fid2 hfid2
      exact lt_of_le_of_lt (hle t ht g hg) hlt2

/-- C8: over any frame sequence with strictly increasing frame indices,
every track the tracker ever produces (active or finalized) records a
strictly increasing list of frame indices: appends to matched tracks and
the indices stored when new tracks start never duplicate or go below an
index already recorded. -/
theorem C8_frames_strictly_increasing (sq : ℚ → ℚ) (P : TrackParams)
    (framesIn : List (ℕ × Option (List MovingObject)))
    (h : (framesIn.map Prod.fst).Chain' (· < ·)) :
    allTracksSorted (runTracker sq P framesIn ⟨[], []⟩) := by
  apply runTracker_ok sq P framesIn ⟨[], []⟩ ?_ h ?_
  · intro t ht
    cases ht
  · intro fid _ t ht
    cases ht

theorem foldl_invariant {α β : Type} (f : α → β → α) (P : α → Prop)
    (l : List β) (init : α) (h0 : P init)
    (hstep : ∀ a, P a → ∀ b ∈ l, P (f a b)) : P (l.foldl f init) := by
  induction l generalizing init with
  | nil => exact h0
  | cons x xs ih =>
    exact ih (f init x) (hstep init h0 x (List.mem_cons_self x xs))
      (fun a ha b hb => hstep a ha b (List.mem_cons_of_mem x hb))

theorem argmaxPair_getElem? (l : List ℚ) (h : l ≠ []) :
    l[(argmaxPair l).1]? = some (argmaxPair l).2 := by
  unfold argmaxPair
  apply foldl_invariant _ (fun best : ℕ × ℚ => l[best.1]? = some best.2)
  · obtain ⟨a, t, rfl⟩ := List.exists_cons_of_ne_nil h
    simp
  · intro best hb q hq
    by_cases hgt : q.2 > best.2
    · rw [if_pos hgt]
      obtain ⟨i, v⟩ := q
      exact List.mk_mem_enum_iff_getElem?.mp hq
    · rw [if_neg hgt]
      exact hb

/-- C3: the moving-track filter at three moving tracks of last sizes 10,
20 and 30 with `mouse/max_count = 2` retains the tracks of sizes 10 and
20 — the SMALLEST two — because `np.argsort` sorts ascending and the code
takes the first `mouse_max_count` indices, contradicting the source's own
comment ("keep the `mouse_max_count` largest objects") and the
specification. -/
theorem C3_filter_keeps_smallest :
    ((filterMovingTracks 2 (fun _ => true)
        [⟨[0], [⟨(0, 0), 10⟩]⟩, ⟨[0], [⟨(0, 0), 20⟩]⟩,
         ⟨[0], [⟨(0, 0), 30⟩]⟩]).1.map fun t => t.lastObj.size) =
      [10, 20] ∧
    ((filterMovingTracks 2 (fun _ => true)
        [⟨[0], [⟨(0, 0), 10⟩]⟩, ⟨[0], [⟨(0, 0), 20⟩]⟩,
         ⟨[0], [⟨(0, 0), 30⟩]⟩]).2.map fun t => t.lastObj.size) =
      [30] := by
  constructor <;> rfl

/-- C9: whenever both burrow edges are found and the fitted width
`d_l - d_r` falls short of the configured minimum, the symmetric
adjustment makes the width exactly the minimum while keeping the midpoint
`(d_l + d_r)/2` unchanged. -/
theorem C9_min_width_adjustment (widthMin dl dr : ℚ)
    (h : dl - dr < widthMin) :
    (enforceMinWidth widthMin dl dr).1 - (enforceMinWidth widthMin dl dr).2 =
      widthMin ∧
    ((enforceMinWidth widthMin dl dr).1 +
        (enforceMinWidth widthMin dl dr).2) / 2 = (dl + dr) / 2 := by
  simp only [enforceMinWidth]
  rw [if_pos h]
  exact ⟨by ring, by ring⟩

theorem C9_min_width_adjustment_witness :
    (enforceMinWidth 4 1 (-1)).1 - (enforceMinWidth 4 1 (-1)).2 = 4 ∧
    ((enforceMinWidth 4 1 (-1)).1 + (enforceMinWidth 4 1 (-1)).2) / 2 =
      (1 + -1) / 2 :=
  C9_min_width_adjustment 4 1 (-1) (by norm_num)

/-- C4: burrow refinement never fails fatally — a centerline of fewer
than 4 points makes `refine_long_burrow` return the unrefined burrow
unchanged, and an exception inside the GrabCut segmentation makes
`refine_bulky_burrow` return the unrefined burrow unchanged. -/
theorem C4_refinement_failures_nonfatal :
    (∀ (burrow : PBurrow) (go cl : List Pt) (wm sl : ℚ)
      (ef : ℕ → Option ℚ × Option ℚ) (hs : ℕ → Option Pt × Option Pt)
      (sp : ℕ → ℚ × ℚ) (eqd : List Pt → List Pt)
      (fin2 : List Pt → List Pt → Option PBurrow),
      cl.length < 4 →
      refineLongBurrow burrow go cl wm sl ef hs sp eqd fin2 = some burrow) ∧
    (∀ (μ : Type) (burrow : PBurrow) (e : Unit)
      (extract : μ → Except Unit PBurrow),
      refineBulkyBurrow burrow (Except.error e) extract = some burrow) := by
  constructor
  · intro burrow go cl wm sl ef hs sp eqd fin2 hlt
    unfold refineLongBurrow
    rw [if_pos hlt]
  · intro μ burrow e extract
    rfl

theorem C4_refinement_failures_nonfatal_witness :
    refineLongBurrow ⟨[], none, false⟩ [] [(0, 0), (0, 1), (0, 2)] 1 1
        (fun _ => (none, none)) (fun _ => (none, none)) (fun _ => (0, 0))
        id (fun _ _ => none) = some ⟨[], none, false⟩ ∧
    refineBulkyBurrow ⟨[], none, false⟩
        (Except.error () : Except Unit Unit)
        (fun _ => Except.error ()) = some ⟨[], none, false⟩ :=
  ⟨C4_refinement_failures_nonfatal.1 ⟨[], none, false⟩ [] _ 1 1 _ _ _ _ _
      (by decide),
   C4_refinement_failures_nonfatal.2 Unit ⟨[], none, false⟩ () _⟩

/-- C5: a mask whose largest connected component has area below the
configured minimum always fails extraction with `AreaTooSmall` — no
burrow is produced — and a failing candidate is simply skipped by the
feature loop of `find_burrows`, which continues with the remaining
features. -/
theorem C5_area_too_small :
    (∀ (areaMin : ℚ) (contours : List (List Pt × ℚ))
      (pp : List Pt → Option (List Pt)) (mk : List Pt → Except Unit PBurrow),
      contours ≠ [] →
      (∀ a ∈ contours.map Prod.snd, a < areaMin) →
      getBurrowFromMask areaMin contours pp mk =
        Except.error ExtractError.areaTooSmall) ∧
    (∀ (χ : Type) (extract : χ → Except ExtractError PBurrow)
      (l1 l2 : List χ) (x : χ) (e : ExtractError),
      extract x = Except.error e →
      processBurrowFeatures extract (l1 ++ x :: l2) =
        processBurrowFeatures extract l1 ++
          processBurrowFeatures extract l2) := by
  constructor
  · intro areaMin contours pp mk hne hlt
    unfold getBurrowFromMask
    rw [if_neg (by simpa [List.isEmpty_iff] using hne)]
    have hAreasNe : contours.map Prod.snd ≠ [] := by simpa using hne
    have hmem := argmaxPair_getElem? (contours.map Prod.snd) hAreasNe
    have hv : (contours.map Prod.snd).getD
        (argmaxPair (contours.map Prod.snd)).1 0 =
        (argmaxPair (contours.map Prod.snd)).2 := by
      simp [List.getD, hmem]
    rw [if_pos]
    rw [hv]
    exact hlt _ (List.getElem?_mem hmem)
  · intro χ extract l1 l2 x e hx
    induction l1 with
    | nil => simp [processBurrowFeatures, hx]
    | cons y ys ih =>
      simp only [List.cons_append, processBurrowFeatures]
      cases extract y <;> simp [ih]

theorem C5_area_too_small_witness :
    getBurrowFromMask 1000 [([(0, 0)], 50)] (fun c => some c)
        (fun c => Except.ok ⟨c, none, false⟩) =
      Except.error ExtractError.areaTooSmall ∧
    processBurrowFeatures
        (fun b : Bool => if b then Except.ok ⟨[], none, false⟩
          else Except.error ExtractError.areaTooSmall)
        ([true] ++ false :: [true]) =
      processBurrowFeatures
        (fun b : Bool => if b then Except.ok ⟨[], none, false⟩
          else Except.error ExtractError.areaTooSmall) [true] ++
      processBurrowFeatures
        (fun b : Bool => if b then Except.ok ⟨[], none, false⟩
          else Except.error ExtractError.areaTooSmall) [true] :=
  ⟨C5_area_too_small.1 1000 [([(0, 0)], 50)] _ _ (by decide)
      (by intro a ha; simp at ha; rw [ha]; norm_num),
   C5_area_too_small.2 Bool _ [true] [true] false
      ExtractError.areaTooSmall rfl⟩

theorem farthestRay_foldl_max (rayCast : Pt → ℚ → Option (Pt × ℚ))
    (anchor : Pt) :
    ∀ (angles : List ℚ) (init : Option (Pt × ℚ × ℚ)) (b : Pt × ℚ × ℚ),
    angles.foldl (fun best ang =>
      match rayCast anchor ang with
      | none => best
      | some (pt, d) =>
        match best with
        | none => some (pt, d, ang)
        | some bb => if d > bb.2.1 then some (pt, d, ang) else best)
      init = some b →
    (∀ a ∈ angles, ∀ pt d, rayCast anchor a = some (pt, d) → d ≤ b.2.1) ∧
    (∀ b0, init = some b0 → b0.2.1 ≤ b.2.1) := by
  intro angles
  induction angles with
  | nil =>
    intro init b hfold
    refine ⟨?_, ?_⟩
    · intro a ha
      cases ha
    · intro b0 h0
      rw [List.foldl_nil] at hfold
      rw [hfold] at h0
      injection h0 with h0
      exact le_of_eq (congrArg (fun x => x.2.1) h0.symm)
  | cons a as ih =>
    intro init b hfold
    simp only [List.foldl_cons] at hfold
    cases hr : rayCast anchor a with
    | none =>
      rw [hr] at hfold
      obtain ⟨ih1, ih2⟩ := ih init b hfold
      refine ⟨?_, ih2⟩
      intro a2 ha2 pt d hd
      rcases List.mem_cons.mp ha2 with rfl | ha2
      · rw [hr] at hd; cases hd
      · exact ih1 a2 ha2 pt d hd
    | some hit =>
      obtain ⟨pt0, d0⟩ := hit
      rw [hr] at hfold
      cases init with
      | none =>
        simp only [] at hfold
        obtain ⟨ih1, ih2⟩ := ih (some (pt0, d0, a)) b hfold
        have hd0 : d0 ≤ b.2.1 := ih2 (pt0, d0, a) rfl
        refine ⟨?_, ?_⟩
        · intro a2 ha2 pt d hd
          rcases List.mem_cons.mp ha2 with rfl | ha2
          · rw [hr] at hd
            injection hd with hd
            injection hd with hd1 hd2
            exact hd2 ▸ hd0
          · exact ih1 a2 ha2 pt d hd
        · intro b0 h0
          cases h0
      | some bb =>
        simp only [] at hfold
        by_cases hgt : d0 > bb.2.1
        · rw [if_pos hgt] at hfold
          obtain ⟨ih1, ih2⟩ := ih (some (pt0, d0, a)) b hfold
          have hd0 : d0 ≤ b.2.1 := ih2 (pt0, d0, a) rfl
          refine ⟨?_, ?_⟩
          · intro a2 ha2 pt d hd
            rcases List.mem_cons.mp ha2 with rfl | ha2
            · rw [hr] at hd
              injection hd with hd
              injection hd with hd1 hd2
              exact hd2 ▸ hd0
            · exact ih1 a2 ha2 pt d hd
          · intro b0 h0
            injection h0 with h0
            exact h0 ▸ le_trans (le_of_lt hgt) hd0
        · rw [if_neg hgt] at hfold
          obtain ⟨ih1, ih2⟩ := ih (some bb) b hfold
          have hbb : bb.2.1 ≤ b.2.1 := ih2 bb rfl
          refine ⟨?_, ?_⟩
          · intro a2 ha2 pt d hd
            rcases List.mem_cons.mp ha2 with rfl | ha2
            · rw [hr] at hd
              injection hd with hd
              injection hd with hd1 hd2
              exact hd2 ▸ le_trans (le_of_not_lt hgt) hbb
            · exact ih1 a2 ha2 pt d hd
          · intro b0 h0
            injection h0 with h0
            exact h0 ▸ hbb

theorem farthestRay_max {rayCast : Pt → ℚ → Option (Pt × ℚ)} {anchor : Pt}
    {angles : List ℚ} {b : Pt × ℚ × ℚ}
    (h : farthestRay rayCast anchor angles = some b) :
    ∀ a ∈ angles, ∀ pt d, rayCast anchor a = some (pt, d) → d ≤ b.2.1 :=
  (farthestRay_foldl_max rayCast anchor angles none b h).1

/-- C6: one iteration of the centerline loop casts its rays within the
symmetric window `angle ± arccos(1 - 0.5*(segment_length /
max_curvature_radius)^2)`, the selected hit has maximal intersection
distance among all rays of the window, and the loop advances the anchor
by exactly one segment length along the winning angle and records it when
the maximal distance exceeds one segment length, while otherwise it
records the boundary hit point and terminates. -/
theorem C6_centerline_step (P : CenterlineParams)
    (rayCast : Pt → ℚ → Option (Pt × ℚ)) (fuel : ℕ) (anchor : Pt)
    (ang : ℚ) (acc : List Pt) (pmax : Pt) (dmax angW : ℚ)
    (hfr : farthestRay rayCast anchor
      (linspace (ang - angleMax P) (ang + angleMax P) 16) =
      some (pmax, dmax, angW)) :
    angleMax P = P.arccosFn
      (1 - 1 / 2 * (P.segmentLength / P.curvatureRadiusMax) ^ 2) ∧
    (∀ a ∈ linspace (ang - angleMax P) (ang + angleMax P) 16,
      ∀ pt d, rayCast anchor a = some (pt, d) → d ≤ dmax) ∧
    centerlineLoop P rayCast (fuel + 1) anchor ang acc =
      (if dmax > P.segmentLength then
        centerlineLoop P rayCast fuel
          (anchor.1 + P.segmentLength * P.cosFn angW,
           anchor.2 + P.segmentLength * P.sinFn angW) angW
          (acc ++ [(anchor.1 + P.segmentLength * P.cosFn angW,
            anchor.2 + P.segmentLength * P.sinFn angW)])
      else acc ++ [pmax]) := by
  refine ⟨rfl, ?_, ?_⟩
  · intro a ha pt d hd
    exact farthestRay_max hfr a ha pt d hd
  · rw [centerlineLoop, hfr]

theorem C2_score_formula_witness :
    scoreAt (scoreMatrix id (1 / 2) 2 1 [⟨(3, 4), 6⟩]
      [⟨[0], [⟨(0, 0), 2⟩]⟩]) 0 0 = 13 / 2 := by
  rw [C2_score_formula id (1 / 2) 2 1 [⟨(3, 4), 6⟩] [⟨[0], [⟨(0, 0), 2⟩]⟩]
    0 0 (by decide) (by decide)]
  norm_num [euclidean, ObjectTrack.predictPos, ObjectTrack.lastObj]

theorem C6_centerline_step_witness :
    centerlineLoop ⟨1, 1, id, id, id⟩ (fun _ _ => some ((5, 5), 2)) 1
      (0, 0) 0 [] = [(-(1 / 2), -(1 / 2))] := by
  have h := C6_centerline_step ⟨1, 1, id, id, id⟩
    (fun _ _ => some ((5, 5), 2)) 0 (0, 0) 0 [] (5, 5) 2 (-(1 / 2))
    (by norm_num [farthestRay, linspace, angleMax, List.range_succ])
  rw [h.2.2]
  norm_num [centerlineLoop]

theorem C10_track_count_witness :
    ((handleObjectTracks id ⟨1 / 2, 5, 1 / 2⟩ 2 [⟨(1, 1), 10⟩]
      [⟨[1], [⟨(0, 0), 10⟩]⟩]).1).length = 1 :=
  C10_track_count id ⟨1 / 2, 5, 1 / 2⟩ 2 _ _ (by decide)

theorem C8_frames_strictly_increasing_witness :
    allTracksSorted (runTracker id ⟨1 / 2, 5, 1 / 2⟩
      [(1, some [⟨(0, 0), 10⟩]), (2, some [⟨(1, 1), 11⟩])] ⟨[], []⟩) :=
  C8_frames_strictly_increasing id ⟨1 / 2, 5, 1 / 2⟩ _
    (by simp [List.chain'_cons])

theorem mergeStep_region (tracks : List MBurrowTrack)
    (st : Option ℕ × ℚ × MBurrow) (tid : ℕ) :
    (mergeStep tracks st tid).2.2.region =
      st.2.2.region ∪ (tracks.getD tid default).lastB.region := by
  unfold mergeStep MBurrow.merge
  split_ifs <;> rfl

theorem mergeFold_subset (tracks : List MBurrowTrack) :
    ∀ (ids : List ℕ) (st0 : Option ℕ × ℚ × MBurrow),
    st0.2.2.region ⊆ (ids.foldl (mergeStep tracks) st0).2.2.region ∧
    ∀ tid ∈ ids, (tracks.getD tid default).lastB.region ⊆
      (ids.foldl (mergeStep tracks) st0).2.2.region := by
  intro ids
  induction ids with
  | nil =>
    intro st0
    exact ⟨Finset.Subset.refl _, by intro tid h; cases h⟩
  | cons tid ids ih =>
    intro st0
    simp only [List.foldl_cons]
    obtain ⟨ih1, ih2⟩ := ih (mergeStep tracks st0 tid)
    refine ⟨?_, ?_⟩
    · refine subset_trans ?_ ih1
      rw [mergeStep_region]
      exact Finset.subset_union_left
    · intro t ht
      rcases List.mem_cons.mp ht with rfl | ht
      · refine subset_trans ?_ ih1
        rw [mergeStep_region]
        exact Finset.subset_union_right
      · exact ih2 t ht

theorem mergeFold_sel (tracks : List MBurrowTrack) :
    ∀ (ids : List ℕ) (st0 : Option ℕ × ℚ × MBurrow),
    st0.2.1 ≤ (ids.foldl (mergeStep tracks) st0).2.1 ∧
    (∀ tid ∈ ids, (tracks.getD tid default).lastB.length ≤
      (ids.foldl (mergeStep tracks) st0).2.1) ∧
    (∀ k, (ids.foldl (mergeStep tracks) st0).1 = some k →
      (k ∈ ids ∧ (ids.foldl (mergeStep tracks) st0).2.1 =
        (tracks.getD k default).lastB.length) ∨
      (st0.1 = some k ∧ (ids.foldl (mergeStep tracks) st0).2.1 = st0.2.1)) ∧
    ((ids.foldl (mergeStep tracks) st0).1 = none →
      st0.1 = none ∧ (ids.foldl (mergeStep tracks) st0).2.1 = st0.2.1 ∧
      ∀ tid ∈ ids, (tracks.getD tid default).lastB.length ≤ st0.2.1) := by
  intro ids
  induction ids with
  | nil =>
    intro st0
    refine ⟨le_refl _, ?_, ?_, ?_⟩
    · intro tid h; cases h
    · intro k hk
      exact Or.inr ⟨hk, rfl⟩
    · intro h
      exact ⟨h, rfl, by intro tid h2; cases h2⟩
  | cons tid ids ih =>
    intro st0
    simp only [List.foldl_cons]
    by_cases hup : (tracks.getD tid default).lastB.length > st0.2.1
    · rw [show mergeStep tracks st0 tid =
          (some tid, (tracks.getD tid default).lastB.length,
            st0.2.2.merge (tracks.getD tid default).lastB) from by
        unfold mergeStep; rw [if_pos hup]]
      obtain ⟨ihA, ihB, ihC, ihD⟩ := ih
        (some tid, (tracks.getD tid default).lastB.length,
          st0.2.2.merge (tracks.getD tid default).lastB)
      refine ⟨?_, ?_, ?_, ?_⟩
      · exact le_trans (le_of_lt hup) ihA
      · intro t ht
        rcases List.mem_cons.mp ht with rfl | ht
        · exact ihA
        · exact ihB t ht
      · intro k hk
        rcases ihC k hk with ⟨hmem, heq⟩ | ⟨hs, heq⟩
        · exact Or.inl ⟨List.mem_cons_of_mem _ hmem, heq⟩
        · have htk : tid = k := by simpa using hs
          subst htk
          exact Or.inl ⟨List.mem_cons_self _ _, heq⟩
      · intro hk
        obtain ⟨hs, -, -⟩ := ihD hk
        exact absurd hs (by simp)
    · rw [show mergeStep tracks st0 tid =
          (st0.1, st0.2.1,
            st0.2.2.merge (tracks.getD tid default).lastB) from by
        unfold mergeStep; rw [if_neg hup]]
      obtain ⟨ihA, ihB, ihC, ihD⟩ := ih
        (st0.1, st0.2.1, st0.2.2.merge (tracks.getD tid default).lastB)
      have hle : (tracks.getD tid default).lastB.length ≤ st0.2.1 :=
        le_of_not_lt hup
      refine ⟨?_, ?_, ?_, ?_⟩
      · exact ihA
      · intro t ht
        rcases List.mem_cons.mp ht with rfl | ht
        · exact le_trans hle ihA
        · exact ihB t ht
      · intro k hk
        rcases ihC k hk with ⟨hmem, heq⟩ | ⟨hs, heq⟩
        · exact Or.inl ⟨List.mem_cons_of_mem _ hmem, heq⟩
        · exact Or.inr ⟨hs, heq⟩
      · intro hk
        obtain ⟨hs, heq, hall⟩ := ihD hk
        refine ⟨hs, heq, ?_⟩
        intro t ht
        rcases List.mem_cons.mp ht with rfl | ht
        · exact hle
        · exact hall t ht

theorem overlappingIds_lt (fid interval : ℕ) (tracks : List MBurrowTrack)
    (burrow : MBurrow) :
    ∀ k ∈ overlappingIds fid interval tracks burrow, k < tracks.length := by
  intro k hk
  unfold overlappingIds at hk
  rcases List.mem_map.mp hk with ⟨q, hq, rfl⟩
  obtain ⟨i, t⟩ := q
  have := List.mk_mem_enum_iff_getElem?.mp (List.mem_of_mem_filter hq)
  exact (List.getElem?_eq_some.mp this).1

theorem countP_congr_mem {α : Type} (l : List α) (p q : α → Bool)
    (h : ∀ a ∈ l, p a = q a) : l.countP p = l.countP q := by
  induction l with
  | nil => rfl
  | cons x xs ih =>
    have hx := h x (List.mem_cons_self x xs)
    have ihx := ih (fun a ha => h a (List.mem_cons_of_mem x ha))
    by_cases hp : p x = true
    · rw [List.countP_cons_of_pos _ _ hp,
        List.countP_cons_of_pos _ _ (hx ▸ hp), ihx]
    · rw [List.countP_cons_of_neg _ _ hp,
        List.countP_cons_of_neg _ _ (by rw [← hx]; exact hp), ihx]

theorem trackEnd_appendB (t : MBurrowTrack) (fid : ℕ) (b : MBurrow) :
    (t.appendB fid b).trackEnd = fid := by
  simp [MBurrowTrack.appendB, MBurrowTrack.trackEnd, List.getLastD_concat]

theorem lastB_appendB (t : MBurrowTrack) (fid : ℕ) (b : MBurrow) :
    (t.appendB fid b).lastB = b := by
  simp [MBurrowTrack.appendB, MBurrowTrack.lastB, List.getLastD_concat]

theorem update_getD (tracks : List MBurrowTrack) (k : ℕ)
    (hk : k < tracks.length) (fid : ℕ) (b2 : MBurrow) :
    ((tracks.enum.map fun q => if q.1 = k then q.2.appendB fid b2
      else q.2).getD k default) =
      (tracks.getD k default).appendB fid b2 := by
  have h1 : (tracks.enum.map fun q => if q.1 = k then q.2.appendB fid b2
      else q.2)[k]? = some ((tracks.get ⟨k, hk⟩).appendB fid b2) := by
    rw [List.getElem?_map, List.getElem?_enum, List.getElem?_eq_getElem hk]
    simp
  simp only [List.getD, List.get?_eq_getElem?, h1, Option.getD_some,
    List.getElem?_eq_getElem hk]
  rfl

theorem update_active_count (tracks : List MBurrowTrack) (k fid : ℕ)
    (hk : k < tracks.length) (hprev : ∀ t ∈ tracks, t.trackEnd < fid)
    (b2 : MBurrow) :
    (((tracks.enum.map fun q => if q.1 = k then q.2.appendB fid b2
      else q.2).filter fun t => decide (fid ≤ t.trackEnd)).length) = 1 := by
  rw [← List.countP_eq_length_filter, List.countP_map]
  have hcongr := countP_congr_mem tracks.enum
    ((fun t => decide (fid ≤ t.trackEnd)) ∘
      fun q : ℕ × MBurrowTrack => if q.1 = k then q.2.appendB fid b2 else q.2)
    (fun q : ℕ × MBurrowTrack => decide (q.1 = k)) ?_
  · rw [hcongr]
    have hmapped : (List.range tracks.length).countP
        (fun i => decide (i = k)) = 1 := by
      have := countP_range_mem (fun i => decide (i = k)) [k]
        tracks.length (by simp) (by simpa using hk) (by intro j; simp)
      simpa using this
    have hrel : (List.range tracks.length).countP (fun i => decide (i = k)) =
        tracks.enum.countP (fun q : ℕ × MBurrowTrack => decide (q.1 = k)) := by
      rw [← List.enum_map_fst tracks, List.countP_map]
      rfl
    rw [← hrel, hmapped]
  · intro q hq
    obtain ⟨i, t⟩ := q
    have hmem : t ∈ tracks :=
      List.getElem?_mem (List.mk_mem_enum_iff_getElem?.mp hq)
    by_cases hik : i = k
    · subst hik
      simp [Function.comp, trackEnd_appendB]
    · simp only [Function.comp, if_neg hik]
      have := hprev t hmem
      simp [hik]
      omega

theorem getD_mem {α : Type} [Inhabited α] (l : List α) (i : ℕ)
    (h : i < l.length) : l.getD i default ∈ l := by
  simp only [List.getD, List.get?_eq_getElem?, List.getElem?_eq_getElem h,
    Option.getD_some]
  exact List.getElem_mem h

/-- C7: when a candidate burrow overlaps more than one active burrow
track, all overlapping tracks' burrows are merged into the candidate, the
result is appended (at the current frame) to the overlapping track whose
current burrow has the longest centerline, exactly one track is active
afterwards at recency window 0 (the set `store_burrows` continues with),
and the merged polygon's area is at least the area of the candidate and
of every merged track's burrow. -/
theorem C7_burrow_track_merge (fid interval : ℕ) (ground : Finset (ℤ × ℤ))
    (tracks : List MBurrowTrack) (burrow : MBurrow)
    (hprev : ∀ t ∈ tracks, t.trackEnd < fid)
    (hmany : 1 < (overlappingIds fid interval tracks burrow).length)
    (hpos : ∃ j ∈ overlappingIds fid interval tracks burrow,
      0 < (tracks.getD j default).lastB.length)
    (hgb : burrow.region ⊆ ground)
    (hgt : ∀ t ∈ tracks, t.lastB.region ⊆ ground)
    (hne : burrow.region.Nonempty) :
    ∃ k tracks2,
      storeBurrowCandidate fid interval ground tracks burrow =
        some tracks2 ∧
      k ∈ overlappingIds fid interval tracks burrow ∧
      (∀ j ∈ overlappingIds fid interval tracks burrow,
        (tracks.getD j default).lastB.length ≤
          (tracks.getD k default).lastB.length) ∧
      (tracks2.getD k default).trackEnd = fid ∧
      ((tracks2.filter fun t => decide (fid ≤ t.trackEnd)).length = 1) ∧
      burrow.area ≤ (tracks2.getD k default).lastB.area ∧
      ∀ j ∈ overlappingIds fid interval tracks burrow,
        (tracks.getD j default).lastB.area ≤
          (tracks2.getD k default).lastB.area := by
  obtain ⟨selA, selB, selC, selD⟩ := mergeFold_sel tracks
    (overlappingIds fid interval tracks burrow) (none, 0, burrow)
  obtain ⟨subB, subT⟩ := mergeFold_subset tracks
    (overlappingIds fid interval tracks burrow) (none, 0, burrow)
  have hsome : ((overlappingIds fid interval tracks burrow).foldl
      (mergeStep tracks) (none, 0, burrow)).1 ≠ none := by
    intro h0
    obtain ⟨-, -, hall⟩ := selD h0
    obtain ⟨j, hj, hjpos⟩ := hpos
    exact absurd (hall j hj) (not_le.mpr hjpos)
  obtain ⟨k, hk⟩ : ∃ k, ((overlappingIds fid interval tracks burrow).foldl
      (mergeStep tracks) (none, 0, burrow)).1 = some k := by
    cases hsel : ((overlappingIds fid interval tracks burrow).foldl
      (mergeStep tracks) (none, 0, burrow)).1 with
    | none => exact absurd hsel hsome
    | some k => exact ⟨k, rfl⟩
  have hkmem : k ∈ overlappingIds fid interval tracks burrow ∧
      ((overlappingIds fid interval tracks burrow).foldl
        (mergeStep tracks) (none, 0, burrow)).2.1 =
        (tracks.getD k default).lastB.length := by
    rcases selC k hk with h | ⟨h1, -⟩
    · exact h
    · exact absurd h1 (by simp)
  have hk_lt : k < tracks.length :=
    overlappingIds_lt fid interval tracks burrow k hkmem.1
  have hmerged_sub : ((overlappingIds fid interval tracks burrow).foldl
      (mergeStep tracks) (none, 0, burrow)).2.2.region ⊆ ground := by
    apply foldl_invariant (mergeStep tracks)
      (fun st : Option ℕ × ℚ × MBurrow => st.2.2.region ⊆ ground)
      (overlappingIds fid interval tracks burrow) (none, 0, burrow) hgb
    intro st hst tid htid
    rw [mergeStep_region]
    apply Finset.union_subset hst
    exact hgt _ (getD_mem tracks tid
      (overlappingIds_lt fid interval tracks burrow tid htid))
  have hclip : ((overlappingIds fid interval tracks burrow).foldl
      (mergeStep tracks) (none, 0, burrow)).2.2.region ∩ ground =
      ((overlappingIds fid interval tracks burrow).foldl
        (mergeStep tracks) (none, 0, burrow)).2.2.region :=
    Finset.inter_eq_left.mpr hmerged_sub
  have hclip_ne : ¬ (((overlappingIds fid interval tracks burrow).foldl
      (mergeStep tracks) (none, 0, burrow)).2.2.region ∩ ground = ∅) := by
    rw [hclip]
    obtain ⟨x, hx⟩ := hne
    intro h0
    have hx2 := subB hx
    rw [h0] at hx2
    cases hx2
  refine ⟨k, tracks.enum.map fun q =>
      if q.1 = k then q.2.appendB fid
        ⟨((overlappingIds fid interval tracks burrow).foldl
          (mergeStep tracks) (none, 0, burrow)).2.2.region ∩ ground,
         ((overlappingIds fid interval tracks burrow).foldl
          (mergeStep tracks) (none, 0, burrow)).2.2.length⟩
      else q.2, ?_, hkmem.1, ?_, ?_, ?_, ?_, ?_⟩
  · unfold storeBurrowCandidate storeAfterMerge mergeLoop
    rw [if_pos hmany]
    rw [if_neg hclip_ne, if_pos hmany, hk]
  · intro j hj
    exact le_trans (selB j hj) (le_of_eq hkmem.2)
  · rw [update_getD tracks k hk_lt fid _, trackEnd_appendB]
  · exact update_active_count tracks k fid hk_lt hprev _
  · rw [update_getD tracks k hk_lt fid _, lastB_appendB]
    unfold MBurrow.area
    apply Finset.card_le_card
    rw [hclip]
    exact subB
  · intro j hj
    rw [update_getD tracks k hk_lt fid _, lastB_appendB]
    unfold MBurrow.area
    apply Finset.card_le_card
    rw [hclip]
    exact subT j hj

theorem C7_burrow_track_merge_witness :
    ∃ k tracks2,
      storeBurrowCandidate 10 10 sampleGround sampleTracks sampleBurrow =
        some tracks2 ∧
      k ∈ overlappingIds 10 10 sampleTracks sampleBurrow ∧
      (∀ j ∈ overlappingIds 10 10 sampleTracks sampleBurrow,
        (sampleTracks.getD j default).lastB.length ≤
          (sampleTracks.getD k default).lastB.length) ∧
      (tracks2.getD k default).trackEnd = 10 ∧
      ((tracks2.filter fun t => decide (10 ≤ t.trackEnd)).length = 1) ∧
      sampleBurrow.area ≤ (tracks2.getD k default).lastB.area ∧
      ∀ j ∈ overlappingIds 10 10 sampleTracks sampleBurrow,
        (sampleTracks.getD j default).lastB.area ≤
          (tracks2.getD k default).lastB.area :=
  C7_burrow_track_merge 10 10 sampleGround sampleTracks sampleBurrow
    (by decide) (by decide) (by decide) (by decide) (by decide) (by decide)

end MouseBurrows
